import Mathlib

/-!
Shallow embedding of `src/pgmpy/models/continuous/JointGaussianDistribution.py`.

The Python class `JointGaussianDistribution` stores an ordered list of variable
names, a mean column vector (numpy matrix of shape (n,1)), a covariance matrix
(numpy matrix of shape (n,n)) and a lazily computed cached precision matrix.
We model:
  * variable identifiers as `String`;
  * the mean column vector as `List ℚ` (its entries, top to bottom);
  * the covariance matrix as `List (List ℚ)` (its rows);
  * the external numpy linear-algebra primitives (`np.linalg.inv`) exactly,
    over ℚ, via Mathlib's determinant and adjugate;
  * raised Python exceptions as `Except` errors, named after the spec's
    error taxonomy (the code raises `ValueError` / `TypeError` /
    `numpy.linalg.LinAlgError`; the spec calls these `DimensionError`,
    `InvalidArgumentError`, `UnknownVariableError`, `SingularMatrixError`).
Mutation of the receiver is modeled by explicit state passing: an operation
that may mutate `self` returns the new state of `self` together with its
Python return value.
-/

namespace Pgmpy

/-- The spec's error taxonomy (section 7).  In the source, `DimensionError`,
`UnknownVariableError` are `ValueError`, `InvalidArgumentError` is `TypeError`,
`SingularMatrixError` is `numpy.linalg.LinAlgError`. -/
inductive PgmpyError where
  | DimensionError
  | SingularMatrixError
  | InvalidArgumentError
  | UnknownVariableError
deriving DecidableEq, Repr

/-- The state of a `JointGaussianDistribution` object: the fields assigned in
`__init__` and mutated by `marginalize`.  `_precision_matrix` is the lazy
cache, `None` in Python becoming `none` here. -/
structure JointGaussianDistribution where
  «variables» : List String
  mean_vector : List ℚ
  covariance_matrix : List (List ℚ)
  _precision_matrix : Option (List (List ℚ))
deriving DecidableEq, Repr

/-- View a list-of-rows as an n×n Mathlib matrix (entry lookup, 0 outside). -/
def toMatrix (n : ℕ) (rows : List (List ℚ)) : Matrix (Fin n) (Fin n) ℚ :=
  Matrix.of fun i j => ((rows.getD i.val []).getD j.val 0)

/-- Render an n×n Mathlib matrix back as a list of rows. -/
def ofMatrix (n : ℕ) (A : Matrix (Fin n) (Fin n) ℚ) : List (List ℚ) :=
  (List.finRange n).map fun i => (List.finRange n).map fun j => A i j

/-- Model of `numpy.linalg.inv` on a square matrix given by its rows:
raises `LinAlgError` ("Singular matrix") when the matrix is not invertible,
otherwise returns the exact inverse.  `np.linalg` is an external library,
assumed exact by the spec (section 6); over ℚ the inverse is
`det⁻¹ • adjugate`. -/
def npLinalgInv (rows : List (List ℚ)) : Except PgmpyError (List (List ℚ)) :=
  let n := rows.length
  let A := toMatrix n rows
  if A.det = 0 then .error .SingularMatrixError
  else .ok (ofMatrix n (A.det⁻¹ • A.adjugate))

/-- `__init__(self, variables, mean_vector, covariance_matrix)`:
checks `len(mean_vector) != n`, coerces and stores the fields, checks the
covariance shape against `(n, n)`, and initializes the cache to `None`.
The numpy coercions `np.matrix(np.reshape(mean_vector, (n,1)))` and
`np.matrix(covariance_matrix)` keep the entries; the shape test
`self.covariance_matrix.shape != (n, n)` becomes: `n` rows, every row of
length `n`. -/
def init («variables» : List String) (mean_vector : List ℚ)
    (covariance_matrix : List (List ℚ)) :
    Except PgmpyError JointGaussianDistribution :=
  let n := «variables».length
  if mean_vector.length ≠ n then
    .error .DimensionError
  else if ¬ (covariance_matrix.length = n ∧
      ∀ r ∈ covariance_matrix, r.length = n) then
    .error .DimensionError
  else
    .ok { «variables» := «variables»
          mean_vector := mean_vector
          covariance_matrix := covariance_matrix
          _precision_matrix := none }

/-- The `precision_matrix` property: if the cache is `None`, compute
`np.linalg.inv(self.covariance_matrix)` and store it; return the cached
value.  Returns the Python value together with the (possibly updated)
state of `self`. -/
def precision_matrix (self : JointGaussianDistribution) :
    Except PgmpyError (List (List ℚ) × JointGaussianDistribution) :=
  match self._precision_matrix with
  | some P => .ok (P, self)
  | none =>
    match npLinalgInv self.covariance_matrix with
    | .error e => .error e
    | .ok P => .ok (P, { self with _precision_matrix := some P })

/-- `copy(self)`: calls the constructor on the current fields and then
copies the cache over verbatim
(`copy_distribution._precision_matrix = self._precision_matrix`). -/
def copy (self : JointGaussianDistribution) :
    Except PgmpyError JointGaussianDistribution :=
  (init self.variables self.mean_vector self.covariance_matrix).map
    fun d => { d with _precision_matrix := self._precision_matrix }

/-- The `variables` argument of `marginalize` in Python is either a bare
string (rejected by the `isinstance(variables, six.string_types)` guard) or
a list of identifiers. -/
inductive VarArg where
  | str (s : String)
  | list (vs : List String)
deriving DecidableEq, Repr

/-- `[distribution.variables.index(var) for var in variables]`:
`list.index` returns the first position of `var`, raising `ValueError`
(spec: `UnknownVariableError`) when absent; the comprehension stops at the
first failure. -/
def resolveIndexes (l : List String) (vs : List String) :
    Except PgmpyError (List ℕ) :=
  vs.mapM fun v =>
    match l.findIdx? (· = v) with
    | some i => Except.ok i
    | none => Except.error .UnknownVariableError

/-- `marginalize(self, variables, inplace=True)`.  Returns the new state of
`self` together with the Python return value (`None` for `inplace=True`,
the new distribution for `inplace=False`). -/
def marginalize (self : JointGaussianDistribution) («variables» : VarArg)
    (inplace : Bool := true) :
    Except PgmpyError (JointGaussianDistribution × Option JointGaussianDistribution) := do
  match «variables» with
  | .str _ => .error .InvalidArgumentError
  | .list vs =>
    let distribution ← if inplace then pure self else copy self
    let var_indexes ← resolveIndexes distribution.variables vs
    let index_to_keep :=
      (List.range self.variables.length).filter fun i => ¬ i ∈ var_indexes
    let result : JointGaussianDistribution :=
      { «variables» := index_to_keep.map fun i => distribution.variables.getD i ""
        mean_vector := index_to_keep.map fun i => distribution.mean_vector.getD i 0
        covariance_matrix := index_to_keep.map fun i =>
          index_to_keep.map fun j =>
            (distribution.covariance_matrix.getD i []).getD j 0
        _precision_matrix := none }
    if inplace then pure (result, none) else pure (self, some result)

/-- Decidable equality of outcomes, for evaluating the model on concrete
inputs. -/
instance {ε α : Type} [DecidableEq ε] [DecidableEq α] :
    DecidableEq (Except ε α) := fun a b =>
  match a, b with
  | .ok x, .ok y =>
    if h : x = y then isTrue (by rw [h])
    else isFalse (by intro hc; cases hc; exact h rfl)
  | .error e, .error f =>
    if h : e = f then isTrue (by rw [h])
    else isFalse (by intro hc; cases hc; exact h rfl)
  | .ok _, .error _ => isFalse (by intro hc; cases hc)
  | .error _, .ok _ => isFalse (by intro hc; cases hc)

/-- The dimension consistency invariant of the data model (spec section 3):
mean length, covariance row count and every covariance row length all equal
the number of variables. -/
def WellFormed (d : JointGaussianDistribution) : Prop :=
  d.mean_vector.length = d.variables.length ∧
  d.covariance_matrix.length = d.variables.length ∧
  ∀ r ∈ d.covariance_matrix, r.length = d.variables.length

instance (d : JointGaussianDistribution) : Decidable (WellFormed d) := by
  unfold WellFormed; infer_instance

/-- The positions kept by `marginalize`, described by variable membership
rather than by resolved indices: all positions of the current variable list
whose variable is not listed for removal, in ascending order. -/
def keepIndexes (l : List String) (vs : List String) : List ℕ :=
  (List.range l.length).filter fun i => ¬ l.getD i "" ∈ vs

/-- The states reachable through the public operations: construction,
`precision_matrix` access, `marginalize` (both the mutated receiver and the
returned marginal), and `copy`. -/
inductive Reachable : JointGaussianDistribution → Prop where
  | of_init (vs : List String) (mv : List ℚ) (cm : List (List ℚ))
      (d : JointGaussianDistribution) :
      init vs mv cm = .ok d → Reachable d
  | of_precision (d : JointGaussianDistribution) (P : List (List ℚ))
      (d' : JointGaussianDistribution) :
      Reachable d → precision_matrix d = .ok (P, d') → Reachable d'
  | of_marginalize_self (d : JointGaussianDistribution) (a : VarArg) (b : Bool)
      (d' : JointGaussianDistribution) (r : Option JointGaussianDistribution) :
      Reachable d → marginalize d a b = .ok (d', r) → Reachable d'
  | of_marginalize_ret (d : JointGaussianDistribution) (a : VarArg) (b : Bool)
      (d' m : JointGaussianDistribution) :
      Reachable d → marginalize d a b = .ok (d', some m) → Reachable m
  | of_copy (d c : JointGaussianDistribution) :
      Reachable d → copy d = .ok c → Reachable c

/-! Concrete states used by the witnesses: the running example of the spec
(section 8) and a singular variant. -/

def disEx : JointGaussianDistribution :=
  ⟨["x1", "x2", "x3"], [1, -3, 4], [[4, 2, -2], [2, 5, -5], [-2, -5, 8]], none⟩

def disSingular : JointGaussianDistribution :=
  ⟨["x1", "x2"], [0, 0], [[1, 2], [2, 4]], none⟩

/-! Smaller concrete states, for exercising the cache. -/

def disSmall : JointGaussianDistribution :=
  ⟨["x1"], [5], [[2]], none⟩

def disSmallCached : JointGaussianDistribution :=
  ⟨["x1"], [5], [[2]], some [[1/2]]⟩

/-! Basic facts about the matrix view. -/

theorem getD_map_finRange {α : Type} (n : ℕ) (f : Fin n → α) (i : Fin n) (d : α) :
    ((List.finRange n).map f).getD i.val d = f i := by
  rw [List.getD_eq_getElem?_getD, List.getElem?_map]
  have h : i.val < (List.finRange n).length := by
    rw [List.length_finRange]; exact i.isLt
  rw [List.getElem?_eq_getElem h, List.getElem_finRange]
  simp

theorem toMatrix_ofMatrix (n : ℕ) (A : Matrix (Fin n) (Fin n) ℚ) :
    toMatrix n (ofMatrix n A) = A := by
  ext i j
  show (((ofMatrix n A).getD i.val []).getD j.val 0) = A i j
  unfold ofMatrix
  rw [getD_map_finRange n _ i, getD_map_finRange n _ j]

theorem ofMatrix_length (n : ℕ) (A : Matrix (Fin n) (Fin n) ℚ) :
    (ofMatrix n A).length = n := by
  simp [ofMatrix]

/-- Over ℚ, `det⁻¹ • adjugate` is a genuine left inverse when the
determinant is nonzero. -/
theorem smul_adjugate_mul (n : ℕ) (A : Matrix (Fin n) (Fin n) ℚ)
    (h : A.det ≠ 0) : (A.det⁻¹ • A.adjugate) * A = 1 := by
  rw [Matrix.smul_mul, Matrix.adjugate_mul, smul_smul, inv_mul_cancel₀ h, one_smul]

/-- And a right inverse. -/
theorem mul_smul_adjugate (n : ℕ) (A : Matrix (Fin n) (Fin n) ℚ)
    (h : A.det ≠ 0) : A * (A.det⁻¹ • A.adjugate) = 1 := by
  rw [Matrix.mul_smul, Matrix.mul_adjugate, smul_smul, inv_mul_cancel₀ h, one_smul]

/-- `npLinalgInv` succeeds exactly on matrices of nonzero determinant, and
the returned rows, read back as a matrix, form a two-sided inverse. -/
theorem npLinalgInv_ok (rows : List (List ℚ)) (P : List (List ℚ))
    (h : npLinalgInv rows = .ok P) :
    (toMatrix rows.length rows).det ≠ 0 ∧
    toMatrix rows.length P * toMatrix rows.length rows = 1 ∧
    toMatrix rows.length rows * toMatrix rows.length P = 1 := by
  unfold npLinalgInv at h
  by_cases hd : (toMatrix rows.length rows).det = 0
  · rw [if_pos hd] at h; cases h
  · rw [if_neg hd] at h
    have hP : P = ofMatrix rows.length
        ((toMatrix rows.length rows).det⁻¹ • (toMatrix rows.length rows).adjugate) := by
      cases h; rfl
    subst hP
    rw [toMatrix_ofMatrix]
    exact ⟨hd, smul_adjugate_mul _ _ hd, mul_smul_adjugate _ _ hd⟩

theorem npLinalgInv_error (rows : List (List ℚ))
    (h : (toMatrix rows.length rows).det = 0) :
    npLinalgInv rows = .error .SingularMatrixError := by
  unfold npLinalgInv
  rw [if_pos h]

/-! Facts about `list.index` (modeled with `List.findIdx?`). -/

theorem findIdx?_some_spec (l : List String) (v : String) (i : ℕ)
    (h : l.findIdx? (· = v) = some i) :
    i < l.length ∧ l.getD i "" = v := by
  rw [List.findIdx?_eq_some_iff_findIdx_eq] at h
  obtain ⟨hlt, hidx⟩ := h
  refine ⟨hlt, ?_⟩
  have hw : List.findIdx (fun x => decide (x = v)) l < l.length := by
    rw [hidx]; exact hlt
  have := @List.findIdx_getElem _ (fun x => decide (x = v)) l hw
  rw [List.getD_eq_getElem l "" hlt]
  simpa [hidx] using this

theorem findIdx?_isSome_of_mem (l : List String) (v : String) (h : v ∈ l) :
    ∃ i, l.findIdx? (· = v) = some i := by
  cases hf : l.findIdx? (· = v) with
  | some i => exact ⟨i, rfl⟩
  | none =>
    rw [List.findIdx?_eq_none_iff] at hf
    have := hf v h
    simp at this

theorem findIdx?_eq_some_of_nodup (l : List String) (hN : l.Nodup) (v : String)
    (i : ℕ) (hi : i < l.length) (hv : l.getD i "" = v) :
    l.findIdx? (· = v) = some i := by
  have hmem : v ∈ l := by
    rw [List.getD_eq_getElem l "" hi] at hv
    exact hv ▸ List.getElem_mem hi
  obtain ⟨j, hj⟩ := findIdx?_isSome_of_mem l v hmem
  obtain ⟨hjlt, hjv⟩ := findIdx?_some_spec l v j hj
  have : j = i := by
    rw [List.getD_eq_getElem l "" hjlt] at hjv
    rw [List.getD_eq_getElem l "" hi] at hv
    exact (List.Nodup.getElem_inj_iff hN).mp (hjv.trans hv.symm)
  rwa [this] at hj

/-! Success and failure of the index-resolution comprehension. -/

theorem resolveIndexes_ok (l : List String) (vs : List String)
    (h : ∀ v ∈ vs, v ∈ l) :
    resolveIndexes l vs = .ok (vs.map fun v => l.findIdx (· = v)) := by
  induction vs with
  | nil => rfl
  | cons a vs ih =>
    have ha : a ∈ l := h a (List.mem_cons_self a vs)
    obtain ⟨i, hi⟩ := findIdx?_isSome_of_mem l a ha
    have hidx : l.findIdx (· = a) = i :=
      (List.findIdx?_eq_some_iff_findIdx_eq.mp hi).2
    have ihh := ih fun v hv => h v (List.mem_cons_of_mem a hv)
    unfold resolveIndexes at ihh ⊢
    rw [List.mapM_cons, hi]
    simp only [List.map_cons, hidx]
    rw [ihh]
    rfl

theorem resolveIndexes_error (l : List String) (vs : List String)
    (h : ∃ v ∈ vs, ¬ v ∈ l) :
    resolveIndexes l vs = .error .UnknownVariableError := by
  induction vs with
  | nil => simp at h
  | cons a vs ih =>
    unfold resolveIndexes
    rw [List.mapM_cons]
    by_cases ha : a ∈ l
    · obtain ⟨i, hi⟩ := findIdx?_isSome_of_mem l a ha
      rw [hi]
      have hvs : ∃ v ∈ vs, ¬ v ∈ l := by
        obtain ⟨v, hv, hvl⟩ := h
        rcases List.mem_cons.mp hv with rfl | hv'
        · exact absurd ha hvl
        · exact ⟨v, hv', hvl⟩
      have := ih hvs
      unfold resolveIndexes at this
      rw [this]
      rfl
    · have : l.findIdx? (· = a) = none := by
        rw [List.findIdx?_eq_none_iff]
        intro x hx
        simp only [decide_eq_false_iff_not]
        intro hxa
        exact ha (hxa ▸ hx)
      rw [this]
      rfl

/-- Under distinct variable names, a position is resolved from the removal
list exactly when the variable standing at it is listed for removal. -/
theorem mem_resolved_iff (l : List String) (hN : l.Nodup) (vs : List String)
    (h : ∀ v ∈ vs, v ∈ l) (i : ℕ) :
    (i ∈ vs.map fun v => l.findIdx (· = v)) ↔
      (i < l.length ∧ l.getD i "" ∈ vs) := by
  rw [List.mem_map]
  constructor
  · rintro ⟨v, hv, rfl⟩
    obtain ⟨j, hj⟩ := findIdx?_isSome_of_mem l v (h v hv)
    have hidx : l.findIdx (· = v) = j :=
      (List.findIdx?_eq_some_iff_findIdx_eq.mp hj).2
    obtain ⟨hjlt, hjv⟩ := findIdx?_some_spec l v j hj
    rw [hidx]
    exact ⟨hjlt, hjv ▸ hv⟩
  · rintro ⟨hi, hmem⟩
    refine ⟨l.getD i "", hmem, ?_⟩
    have := findIdx?_eq_some_of_nodup l hN (l.getD i "") i hi rfl
    exact (List.findIdx?_eq_some_iff_findIdx_eq.mp this).2

theorem index_to_keep_eq_keepIndexes (l : List String) (hN : l.Nodup)
    (vs : List String) (h : ∀ v ∈ vs, v ∈ l) :
    ((List.range l.length).filter
        fun i => ¬ i ∈ (vs.map fun v => l.findIdx (· = v))) =
      keepIndexes l vs := by
  unfold keepIndexes
  apply List.filter_congr
  intro i hi
  have hilt : i < l.length := List.mem_range.mp hi
  simp only [decide_eq_decide]
  rw [mem_resolved_iff l hN vs h i]
  constructor
  · intro hni hmem
    exact hni ⟨hilt, hmem⟩
  · rintro hnm ⟨_, hmem⟩
    exact hnm hmem

/-- Selecting `getD` at all positions of a list whose element satisfies `p`
is the same as filtering the list by `p`. -/
theorem filter_range_map_getD {α : Type} (l : List α) (d : α) (p : α → Bool) :
    (((List.range l.length).filter fun i => p (l.getD i d)).map
        fun i => l.getD i d) = l.filter p := by
  induction l with
  | nil => rfl
  | cons a l ih =>
    by_cases hp : p a
    · simp only [List.length_cons, List.range_succ_eq_map, List.filter_cons,
        List.getD_cons_zero, List.getD_cons_succ, hp, if_true, List.filter_map,
        List.map_cons, List.map_map, Function.comp_def]
      rw [ih]
    · simp only [List.length_cons, List.range_succ_eq_map, List.filter_cons,
        List.getD_cons_zero, List.getD_cons_succ, hp, Bool.false_eq_true, if_false,
        List.filter_map, List.map_map, Function.comp_def]
      rw [ih]

/-- Rebuilding a list by `getD`-selection at every position is the identity. -/
theorem map_getD_range {α : Type} (l : List α) (d : α) :
    ((List.range l.length).map fun i => l.getD i d) = l := by
  have := filter_range_map_getD l d (fun _ => true)
  simpa using this

/-! Operational unfoldings of `copy` and `marginalize`. -/

/-- On a dimension-consistent state the constructor call inside `copy`
succeeds, and the copy is value-identical to the source (cache included). -/
theorem copy_ok (d : JointGaussianDistribution) (hW : WellFormed d) :
    copy d = .ok d := by
  obtain ⟨h1, h2, h3⟩ := hW
  unfold copy init
  rw [if_neg (by simp [h1]), if_neg (by simp; exact ⟨h2, h3⟩)]
  rfl

theorem marginalize_list_true (d : JointGaussianDistribution) (vs : List String)
    (idxs : List ℕ) (hres : resolveIndexes d.variables vs = .ok idxs) :
    marginalize d (.list vs) true = .ok
      ({ «variables» := ((List.range d.variables.length).filter
            fun i => ¬ i ∈ idxs).map fun i => d.variables.getD i ""
         mean_vector := ((List.range d.variables.length).filter
            fun i => ¬ i ∈ idxs).map fun i => d.mean_vector.getD i 0
         covariance_matrix := ((List.range d.variables.length).filter
            fun i => ¬ i ∈ idxs).map fun i =>
              ((List.range d.variables.length).filter
                fun j => ¬ j ∈ idxs).map fun j =>
                  (d.covariance_matrix.getD i []).getD j 0
         _precision_matrix := none }, none) := by
  unfold marginalize
  simp only [if_true, bind, Except.bind, pure, Except.pure]
  rw [hres]

theorem marginalize_list_false (d : JointGaussianDistribution) (vs : List String)
    (hW : WellFormed d)
    (idxs : List ℕ) (hres : resolveIndexes d.variables vs = .ok idxs) :
    marginalize d (.list vs) false = .ok
      (d, some
       { «variables» := ((List.range d.variables.length).filter
            fun i => ¬ i ∈ idxs).map fun i => d.variables.getD i ""
         mean_vector := ((List.range d.variables.length).filter
            fun i => ¬ i ∈ idxs).map fun i => d.mean_vector.getD i 0
         covariance_matrix := ((List.range d.variables.length).filter
            fun i => ¬ i ∈ idxs).map fun i =>
              ((List.range d.variables.length).filter
                fun j => ¬ j ∈ idxs).map fun j =>
                  (d.covariance_matrix.getD i []).getD j 0
         _precision_matrix := none }) := by
  unfold marginalize
  simp only [if_false, Bool.false_eq_true, bind, Except.bind, pure, Except.pure,
    copy_ok d hW]
  rw [hres]

theorem marginalize_resolve_error_true (d : JointGaussianDistribution)
    (vs : List String) (e : PgmpyError)
    (hres : resolveIndexes d.variables vs = .error e) :
    marginalize d (.list vs) true = .error e := by
  unfold marginalize
  simp only [if_true, bind, Except.bind, pure, Except.pure]
  rw [hres]

theorem marginalize_resolve_error_false (d : JointGaussianDistribution)
    (vs : List String) (hW : WellFormed d) (e : PgmpyError)
    (hres : resolveIndexes d.variables vs = .error e) :
    marginalize d (.list vs) false = .error e := by
  unfold marginalize
  simp only [if_false, Bool.false_eq_true, bind, Except.bind, pure, Except.pure,
    copy_ok d hW]
  rw [hres]

/-! Unfoldings of the `precision_matrix` property and inversion principles
for successful calls. -/

theorem precision_matrix_of_cached (d : JointGaussianDistribution)
    (P : List (List ℚ)) (hc : d._precision_matrix = some P) :
    precision_matrix d = .ok (P, d) := by
  unfold precision_matrix
  rw [hc]

theorem precision_matrix_of_unset (d : JointGaussianDistribution)
    (hc : d._precision_matrix = none) :
    precision_matrix d =
      (npLinalgInv d.covariance_matrix).map
        fun P => (P, { d with _precision_matrix := some P }) := by
  unfold precision_matrix
  rw [hc]
  cases npLinalgInv d.covariance_matrix <;> rfl

theorem init_ok_inv (vs : List String) (mv : List ℚ) (cm : List (List ℚ))
    (d : JointGaussianDistribution) (h : init vs mv cm = .ok d) :
    d = ⟨vs, mv, cm, none⟩ ∧ mv.length = vs.length ∧
      cm.length = vs.length ∧ ∀ r ∈ cm, r.length = vs.length := by
  unfold init at h
  by_cases h1 : mv.length ≠ vs.length
  · rw [if_pos h1] at h; cases h
  · rw [if_neg h1] at h
    by_cases h2 : cm.length = vs.length ∧ ∀ r ∈ cm, r.length = vs.length
    · rw [if_neg (not_not.mpr h2)] at h
      cases h
      exact ⟨rfl, not_not.mp h1, h2.1, h2.2⟩
    · rw [if_pos h2] at h; cases h

theorem copy_ok_inv (d c : JointGaussianDistribution) (h : copy d = .ok c) :
    c = ⟨d.variables, d.mean_vector, d.covariance_matrix,
      d._precision_matrix⟩ := by
  unfold copy at h
  cases hi : init d.variables d.mean_vector d.covariance_matrix with
  | error e => rw [hi] at h; cases h
  | ok d0 =>
    rw [hi] at h
    obtain ⟨rfl, -, -, -⟩ := init_ok_inv _ _ _ _ hi
    cases h
    rfl

theorem precision_ok_inv (d : JointGaussianDistribution) (P : List (List ℚ))
    (d' : JointGaussianDistribution) (h : precision_matrix d = .ok (P, d')) :
    (d._precision_matrix = some P ∧ d' = d) ∨
    (d._precision_matrix = none ∧ npLinalgInv d.covariance_matrix = .ok P ∧
      d' = { d with _precision_matrix := some P }) := by
  unfold precision_matrix at h
  cases hc : d._precision_matrix with
  | some Q =>
    rw [hc] at h
    cases h
    exact Or.inl ⟨rfl, rfl⟩
  | none =>
    rw [hc] at h
    cases hinv : npLinalgInv d.covariance_matrix with
    | error e => rw [hinv] at h; cases h
    | ok Q =>
      rw [hinv] at h
      cases h
      exact Or.inr ⟨rfl, rfl, rfl⟩

theorem marginalize_ok_self_inv (d : JointGaussianDistribution) (a : VarArg)
    (b : Bool) (d' : JointGaussianDistribution)
    (r : Option JointGaussianDistribution)
    (h : marginalize d a b = .ok (d', r)) :
    d'._precision_matrix = none ∨ d' = d := by
  cases a with
  | str s => unfold marginalize at h; cases h
  | list vs =>
    unfold marginalize at h
    cases b with
    | true =>
      simp only [if_true, bind, Except.bind, pure, Except.pure] at h
      cases hres : resolveIndexes d.variables vs with
      | error e => rw [hres] at h; cases h
      | ok idxs =>
        rw [hres] at h
        cases h
        exact Or.inl rfl
    | false =>
      simp only [if_false, Bool.false_eq_true, bind, Except.bind, pure,
        Except.pure] at h
      cases hcp : copy d with
      | error e => rw [hcp] at h; cases h
      | ok c =>
        rw [hcp] at h
        dsimp only at h
        cases hres : resolveIndexes c.variables vs with
        | error e => rw [hres] at h; cases h
        | ok idxs =>
          rw [hres] at h
          cases h
          exact Or.inr rfl

theorem marginalize_ok_ret_inv (d : JointGaussianDistribution) (a : VarArg)
    (b : Bool) (d' : JointGaussianDistribution)
    (m : JointGaussianDistribution)
    (h : marginalize d a b = .ok (d', some m)) :
    m._precision_matrix = none := by
  cases a with
  | str s => unfold marginalize at h; cases h
  | list vs =>
    unfold marginalize at h
    cases b with
    | true =>
      simp only [if_true, bind, Except.bind, pure, Except.pure] at h
      cases hres : resolveIndexes d.variables vs with
      | error e => rw [hres] at h; cases h
      | ok idxs => rw [hres] at h; cases h
    | false =>
      simp only [if_false, Bool.false_eq_true, bind, Except.bind, pure,
        Except.pure] at h
      cases hcp : copy d with
      | error e => rw [hcp] at h; cases h
      | ok c =>
        rw [hcp] at h
        dsimp only at h
        cases hres : resolveIndexes c.variables vs with
        | error e => rw [hres] at h; cases h
        | ok idxs =>
          rw [hres] at h
          cases h
          rfl

/-- A successful in-place `marginalize` leaves the receiver with a cleared
cache and returns nothing. -/
theorem marginalize_true_ok_inv (d : JointGaussianDistribution)
    (vs : List String) (d' : JointGaussianDistribution)
    (r : Option JointGaussianDistribution)
    (h : marginalize d (.list vs) true = .ok (d', r)) :
    d'._precision_matrix = none ∧ r = none := by
  unfold marginalize at h
  simp only [if_true, bind, Except.bind, pure, Except.pure] at h
  cases hres : resolveIndexes d.variables vs with
  | error e => rw [hres] at h; cases h
  | ok idxs =>
    rw [hres] at h
    cases h
    exact ⟨rfl, rfl⟩

/-- Marginalization only consumes the removal list through membership of its
resolved positions, so removal lists with the same members (in any order,
with any duplicates) produce identical outcomes. -/
theorem marginalize_eq_of_mem_iff (d : JointGaussianDistribution)
    (hW : WellFormed d) (vs vs' : List String)
    (h : ∀ v ∈ vs, v ∈ d.variables) (hm : ∀ v, v ∈ vs' ↔ v ∈ vs) (b : Bool) :
    marginalize d (.list vs') b = marginalize d (.list vs) b := by
  have h' : ∀ v ∈ vs', v ∈ d.variables := fun v hv => h v ((hm v).mp hv)
  have hpred :
      (fun i => decide (¬ i ∈ vs'.map fun v => d.variables.findIdx (· = v)))
        = fun i => decide (¬ i ∈ vs.map fun v => d.variables.findIdx (· = v)) := by
    funext i
    rw [decide_eq_decide]
    apply not_congr
    simp only [List.mem_map]
    constructor
    · rintro ⟨v, hv, e⟩; exact ⟨v, (hm v).mp hv, e⟩
    · rintro ⟨v, hv, e⟩; exact ⟨v, (hm v).mpr hv, e⟩
  cases b with
  | true =>
    rw [marginalize_list_true d vs' _ (resolveIndexes_ok _ _ h'),
      marginalize_list_true d vs _ (resolveIndexes_ok _ _ h)]
    rw [show ((List.range d.variables.length).filter
        fun i => ¬ i ∈ vs'.map fun v => d.variables.findIdx (· = v))
        = ((List.range d.variables.length).filter
        fun i => ¬ i ∈ vs.map fun v => d.variables.findIdx (· = v)) from by
      rw [show (fun i => decide (¬ i ∈ vs'.map fun v => d.variables.findIdx (· = v)))
          = fun i => decide (¬ i ∈ vs.map fun v => d.variables.findIdx (· = v))
        from hpred]]
  | false =>
    rw [marginalize_list_false d vs' hW _ (resolveIndexes_ok _ _ h'),
      marginalize_list_false d vs hW _ (resolveIndexes_ok _ _ h)]
    rw [show ((List.range d.variables.length).filter
        fun i => ¬ i ∈ vs'.map fun v => d.variables.findIdx (· = v))
        = ((List.range d.variables.length).filter
        fun i => ¬ i ∈ vs.map fun v => d.variables.findIdx (· = v)) from by
      rw [show (fun i => decide (¬ i ∈ vs'.map fun v => d.variables.findIdx (· = v)))
          = fun i => decide (¬ i ∈ vs.map fun v => d.variables.findIdx (· = v))
        from hpred]]

/-! The claims. -/

/-- C3: construction fails with `DimensionError` when the mean vector's
length is not `n` (the number of variables); fails with `DimensionError`
when the covariance matrix's shape is not `(n, n)`; and with matching
dimensions succeeds, exposing `variables`, `mean_vector` and
`covariance_matrix` exactly as provided, with the precision cache unset. -/
theorem C3_construction_validation («variables» : List String)
    (mean_vector : List ℚ) (covariance_matrix : List (List ℚ)) :
    (mean_vector.length ≠ «variables».length →
      init «variables» mean_vector covariance_matrix = .error .DimensionError) ∧
    (mean_vector.length = «variables».length →
      ¬ (covariance_matrix.length = «variables».length ∧
        ∀ r ∈ covariance_matrix, r.length = «variables».length) →
      init «variables» mean_vector covariance_matrix = .error .DimensionError) ∧
    (mean_vector.length = «variables».length →
      (covariance_matrix.length = «variables».length ∧
        ∀ r ∈ covariance_matrix, r.length = «variables».length) →
      init «variables» mean_vector covariance_matrix =
        .ok ⟨«variables», mean_vector, covariance_matrix, none⟩) := by
  refine ⟨fun h1 => ?_, fun h1 h2 => ?_, fun h1 h2 => ?_⟩
  · unfold init; rw [if_pos h1]
  · unfold init; rw [if_neg (not_not_intro h1), if_pos h2]
  · unfold init; rw [if_neg (not_not_intro h1), if_neg (not_not_intro h2)]

theorem C3_construction_validation_witness :
    init ["x1"] [1, 2] [[1]] = .error .DimensionError ∧
    init ["x1"] [1] [[1, 2]] = .error .DimensionError ∧
    init ["x1", "x2"] [1, -3] [[4, 2], [2, 5]] =
      .ok ⟨["x1", "x2"], [1, -3], [[4, 2], [2, 5]], none⟩ :=
  ⟨(C3_construction_validation _ _ _).1 (by decide),
   (C3_construction_validation _ _ _).2.1 (by decide) (by decide),
   (C3_construction_validation _ _ _).2.2 (by decide) (by decide)⟩

/-- C4: `copy` succeeds on a consistent state and yields a distribution that
equals the original by value on `variables`, `mean_vector`,
`covariance_matrix`, and carries the cache over verbatim (in particular an
unset cache stays unset).  In this state-passing model the copy is a value,
so no later operation on the original can alter it; the last conjunct
records explicitly that after any successful `marginalize` of the original,
the copy still holds the original's pre-call fields. -/
theorem C4_copy_value_and_independence (d : JointGaussianDistribution)
    (hW : WellFormed d) :
    ∃ c, copy d = .ok c ∧
      c.variables = d.variables ∧
      c.mean_vector = d.mean_vector ∧
      c.covariance_matrix = d.covariance_matrix ∧
      c._precision_matrix = d._precision_matrix ∧
      ∀ (a : VarArg) (b : Bool) d₂ r, marginalize d a b = .ok (d₂, r) →
        c.variables = d.variables ∧ c.mean_vector = d.mean_vector ∧
        c.covariance_matrix = d.covariance_matrix ∧
        c._precision_matrix = d._precision_matrix :=
  ⟨d, copy_ok d hW, rfl, rfl, rfl, rfl, fun _ _ _ _ _ => ⟨rfl, rfl, rfl, rfl⟩⟩

theorem C4_copy_value_and_independence_witness :
    WellFormed disEx ∧
    ∃ c, copy disEx = .ok c ∧
      c.variables = disEx.variables ∧
      c.mean_vector = disEx.mean_vector ∧
      c.covariance_matrix = disEx.covariance_matrix ∧
      c._precision_matrix = disEx._precision_matrix ∧
      ∀ (a : VarArg) (b : Bool) d₂ r, marginalize disEx a b = .ok (d₂, r) →
        c.variables = disEx.variables ∧ c.mean_vector = disEx.mean_vector ∧
        c.covariance_matrix = disEx.covariance_matrix ∧
        c._precision_matrix = disEx._precision_matrix :=
  ⟨by decide, C4_copy_value_and_independence disEx (by decide)⟩

/-- C5: with a valid removal list, `marginalize(R, inplace := false)` leaves
the receiver untouched (the returned receiver state is the original value)
and returns a new distribution holding the marginal, while
`marginalize(R, inplace := true)` returns nothing and mutates the receiver
to that same marginal. -/
theorem C5_inplace_vs_copy (d : JointGaussianDistribution)
    (hW : WellFormed d) (vs : List String)
    (h : ∀ v ∈ vs, v ∈ d.variables) :
    ∃ m, marginalize d (.list vs) false = .ok (d, some m) ∧
      marginalize d (.list vs) true = .ok (m, none) := by
  have hres := resolveIndexes_ok d.variables vs h
  exact ⟨_, marginalize_list_false d vs hW _ hres,
    marginalize_list_true d vs _ hres⟩

theorem C5_inplace_vs_copy_witness :
    WellFormed disEx ∧
    ∃ m, marginalize disEx (.list ["x3"]) false = .ok (disEx, some m) ∧
      marginalize disEx (.list ["x3"]) true = .ok (m, none) :=
  ⟨by decide, C5_inplace_vs_copy disEx (by decide) ["x3"] (by decide)⟩

/-- C8: a removal list containing an identifier not among the current
variables makes `marginalize` fail with `UnknownVariableError` in both
modes.  In the source the exception is raised by `list.index` before any
field of the receiver is assigned, so the receiver keeps its state; in this
model the error outcome carries no successor state at all. -/
theorem C8_unknown_variable (d : JointGaussianDistribution)
    (hW : WellFormed d) (vs : List String)
    (h : ∃ v ∈ vs, ¬ v ∈ d.variables) (b : Bool) :
    marginalize d (.list vs) b = .error .UnknownVariableError := by
  have hres := resolveIndexes_error d.variables vs h
  cases b with
  | true => exact marginalize_resolve_error_true d vs _ hres
  | false => exact marginalize_resolve_error_false d vs hW _ hres

theorem C8_unknown_variable_witness :
    marginalize disEx (.list ["x2", "zz"]) true = .error .UnknownVariableError :=
  C8_unknown_variable disEx (by decide) ["x2", "zz"] (by decide) true

/-- C9: passing a bare string identifier instead of a sequence makes
`marginalize` fail with `InvalidArgumentError` (the `isinstance` guard in
the source, raising `TypeError`) before anything else happens, in either
mode; the characters of the string are never treated as identifiers. -/
theorem C9_scalar_string_rejected (d : JointGaussianDistribution)
    (s : String) (b : Bool) :
    marginalize d (.str s) b = .error .InvalidArgumentError := rfl

/-- C10: repeated identifiers in the removal list are harmless: the outcome
coincides with the outcome on the deduplicated list, because the resolved
positions are only consumed through set membership. -/
theorem C10_duplicates_irrelevant (d : JointGaussianDistribution)
    (hW : WellFormed d) (vs : List String)
    (h : ∀ v ∈ vs, v ∈ d.variables) (b : Bool) :
    marginalize d (.list vs) b = marginalize d (.list vs.dedup) b :=
  (marginalize_eq_of_mem_iff d hW vs vs.dedup h
    (fun _ => List.mem_dedup) b).symm

theorem C10_duplicates_irrelevant_witness :
    marginalize disEx (.list ["x3", "x3"]) true =
      marginalize disEx (.list (["x3", "x3"].dedup)) true :=
  C10_duplicates_irrelevant disEx (by decide) ["x3", "x3"] (by decide) true

/-- In every reachable state, a present cache is a two-sided inverse of the
current covariance matrix. -/
theorem reachable_cache_inverse (d : JointGaussianDistribution)
    (hR : Reachable d) :
    ∀ P, d._precision_matrix = some P →
      toMatrix d.covariance_matrix.length P *
        toMatrix d.covariance_matrix.length d.covariance_matrix = 1 ∧
      toMatrix d.covariance_matrix.length d.covariance_matrix *
        toMatrix d.covariance_matrix.length P = 1 := by
  induction hR with
  | of_init vs mv cm d0 h =>
    intro P hc
    obtain ⟨rfl, -, -, -⟩ := init_ok_inv _ _ _ _ h
    cases hc
  | of_precision d0 P0 d' h hprec ih =>
    intro P hc
    rcases precision_ok_inv d0 P0 d' hprec with ⟨hsome, rfl⟩ | ⟨hnone, hinv, rfl⟩
    · exact ih P hc
    · have hc' : some P0 = some P := hc
      cases hc'
      have hok := npLinalgInv_ok _ _ hinv
      exact ⟨hok.2.1, hok.2.2⟩
  | of_marginalize_self d0 a b d' r h hm ih =>
    intro P hc
    rcases marginalize_ok_self_inv d0 a b d' r hm with hnone | rfl
    · rw [hnone] at hc; cases hc
    · exact ih P hc
  | of_marginalize_ret d0 a b d' m h hm ih =>
    intro P hc
    rw [marginalize_ok_ret_inv d0 a b d' m hm] at hc
    cases hc
  | of_copy d0 c h hcp ih =>
    intro P hc
    obtain rfl := copy_ok_inv d0 c hcp
    exact ih P hc

/-- C6: in every state reachable through the public operations
(construction, `precision_matrix` access, `marginalize`, `copy`), a cached
precision matrix, when present, is exactly the inverse of the current
covariance matrix (their product, in both orders, is the identity).  The
induction over reachability checks that construction starts with an unset
cache, `precision_matrix` caches the inverse it just computed, both
outcomes of `marginalize` clear the cache while mutating the covariance
matrix, and `copy` carries cache and covariance matrix over together — so
no operation can leave a stale cache behind. -/
theorem C6_cache_never_stale (d : JointGaussianDistribution)
    (hR : Reachable d) (P : List (List ℚ))
    (hc : d._precision_matrix = some P) :
    toMatrix d.covariance_matrix.length P *
      toMatrix d.covariance_matrix.length d.covariance_matrix = 1 ∧
    toMatrix d.covariance_matrix.length d.covariance_matrix *
      toMatrix d.covariance_matrix.length P = 1 :=
  reachable_cache_inverse d hR P hc

theorem C6_cache_never_stale_witness :
    Reachable disSmallCached ∧
    (toMatrix disSmallCached.covariance_matrix.length [[1/2]] *
      toMatrix disSmallCached.covariance_matrix.length
        disSmallCached.covariance_matrix = 1 ∧
     toMatrix disSmallCached.covariance_matrix.length
        disSmallCached.covariance_matrix *
      toMatrix disSmallCached.covariance_matrix.length [[1/2]] = 1) := by
  have hinv : npLinalgInv disSmall.covariance_matrix = .ok [[1/2]] := by
    show npLinalgInv [[2]] = .ok [[1/2]]
    have hmat : toMatrix 1 [[(2:ℚ)]] = !![(2:ℚ)] := by
      ext i j; fin_cases i; fin_cases j; rfl
    simp only [npLinalgInv, List.length_cons, List.length_nil, Nat.zero_add,
      hmat]
    rw [Matrix.det_fin_one_of, if_neg (by norm_num), Matrix.adjugate_fin_one]
    simp only [ofMatrix, List.finRange_succ, List.finRange_zero]
    norm_num [Matrix.one_apply]
  have hprec : precision_matrix disSmall = .ok ([[1/2]], disSmallCached) := by
    rw [precision_matrix_of_unset disSmall rfl, hinv]
    rfl
  have hR : Reachable disSmallCached :=
    Reachable.of_precision disSmall [[1/2]] disSmallCached
      (Reachable.of_init ["x1"] [5] [[2]] disSmall (by decide)) hprec
  exact ⟨hR, C6_cache_never_stale disSmallCached hR [[1/2]] rfl⟩

/-- C1: marginalizing out a valid removal set `R` keeps the variables not in
`R` in their original relative order (a filter of the variable list), takes
the sub-vector of the mean and the principal submatrix of the covariance at
the kept positions (`keepIndexes`, the ascending list of positions whose
variable is not removed); the outcome depends on `R` only through
membership, hence not on the order `R` was supplied in; removing everything
yields the valid empty distribution; and removing nothing reproduces
`variables`, `mean_vector` and `covariance_matrix` by value. -/
theorem C1_marginalize_marginal (d : JointGaussianDistribution)
    (hW : WellFormed d) (hN : d.variables.Nodup)
    (vs : List String) (h : ∀ v ∈ vs, v ∈ d.variables) :
    (marginalize d (.list vs) true = .ok (
      { «variables» := d.variables.filter fun v => ¬ v ∈ vs
        mean_vector := (keepIndexes d.variables vs).map fun i =>
          d.mean_vector.getD i 0
        covariance_matrix := (keepIndexes d.variables vs).map fun i =>
          (keepIndexes d.variables vs).map fun j =>
            (d.covariance_matrix.getD i []).getD j 0
        _precision_matrix := none }, none)) ∧
    (∀ vs' : List String, (∀ v, v ∈ vs' ↔ v ∈ vs) →
      marginalize d (.list vs') true = marginalize d (.list vs) true) ∧
    ((∀ v ∈ d.variables, v ∈ vs) →
      marginalize d (.list vs) true = .ok (⟨[], [], [], none⟩, none)) ∧
    (marginalize d (.list []) true =
      .ok (⟨d.variables, d.mean_vector, d.covariance_matrix, none⟩, none)) := by
  have hres := resolveIndexes_ok d.variables vs h
  have hmain : marginalize d (.list vs) true = .ok (
      { «variables» := d.variables.filter fun v => ¬ v ∈ vs
        mean_vector := (keepIndexes d.variables vs).map fun i =>
          d.mean_vector.getD i 0
        covariance_matrix := (keepIndexes d.variables vs).map fun i =>
          (keepIndexes d.variables vs).map fun j =>
            (d.covariance_matrix.getD i []).getD j 0
        _precision_matrix := none }, none) := by
    rw [marginalize_list_true d vs _ hres]
    rw [index_to_keep_eq_keepIndexes d.variables hN vs h]
    have hv : (keepIndexes d.variables vs).map (fun i => d.variables.getD i "")
        = d.variables.filter (fun v => ¬ v ∈ vs) := by
      unfold keepIndexes
      exact filter_range_map_getD d.variables "" (fun v => ¬ v ∈ vs)
    rw [hv]
  refine ⟨hmain, fun vs' hm => marginalize_eq_of_mem_iff d hW vs vs' h hm true,
    fun hall => ?_, ?_⟩
  · rw [hmain]
    have hkeep : keepIndexes d.variables vs = [] := by
      unfold keepIndexes
      rw [List.filter_eq_nil_iff]
      intro i hi
      have hilt : i < d.variables.length := List.mem_range.mp hi
      simp only [decide_not, Bool.not_eq_true', decide_eq_false_iff_not, not_not]
      rw [List.getD_eq_getElem _ _ hilt]
      exact hall _ (List.getElem_mem hilt)
    have hfilter : d.variables.filter (fun v => ¬ v ∈ vs) = [] := by
      rw [List.filter_eq_nil_iff]
      intro a ha
      simp only [decide_not, Bool.not_eq_true', decide_eq_false_iff_not, not_not]
      exact hall a ha
    rw [hkeep, hfilter]
    rfl
  · obtain ⟨h1, h2, h3⟩ := hW
    rw [marginalize_list_true d [] [] rfl]
    have hfilter : ((List.range d.variables.length).filter
        fun i => ¬ i ∈ ([] : List ℕ)) = List.range d.variables.length := by
      simp
    rw [hfilter]
    have hvar : ((List.range d.variables.length).map
        fun i => d.variables.getD i "") = d.variables := map_getD_range _ _
    have hmean : ((List.range d.variables.length).map
        fun i => d.mean_vector.getD i 0) = d.mean_vector := by
      rw [← h1]; exact map_getD_range _ _
    have hcov : ((List.range d.variables.length).map
        fun i => (List.range d.variables.length).map
          fun j => (d.covariance_matrix.getD i []).getD j 0)
        = d.covariance_matrix := by
      have hrows : ∀ i ∈ List.range d.variables.length,
          ((List.range d.variables.length).map
            fun j => (d.covariance_matrix.getD i []).getD j 0)
          = d.covariance_matrix.getD i [] := by
        intro i hi
        have hilt : i < d.covariance_matrix.length := by
          rw [h2]; exact List.mem_range.mp hi
        have hrow : (d.covariance_matrix.getD i []).length
            = d.variables.length := by
          rw [List.getD_eq_getElem _ _ hilt]
          exact h3 _ (List.getElem_mem hilt)
        rw [← hrow]
        exact map_getD_range _ _
      rw [List.map_congr_left hrows, ← h2]
      exact map_getD_range _ _
    rw [hvar, hmean, hcov]

theorem C1_marginalize_marginal_witness :
    marginalize disEx (.list ["x3"]) true =
      .ok (⟨["x1", "x2"], [1, -3], [[4, 2], [2, 5]], none⟩, none) := by
  have := (C1_marginalize_marginal disEx (by decide) (by decide) ["x3"]
    (by decide)).1
  rw [this]
  decide

/-- C2: on a state with an unset cache and an invertible covariance matrix,
the first `precision_matrix` access computes the inverse of the covariance
matrix (their product is the identity) and stores it in the cache; a second
access without intervening mutation returns exactly the cached value and
the same state; and after any successful in-place `marginalize` the cache
is cleared, so the next access computes `np.linalg.inv` of the new
covariance matrix instead of returning the stale value. -/
theorem C2_precision_lazy_cache (d : JointGaussianDistribution)
    (hc : d._precision_matrix = none)
    (hdet : (toMatrix d.covariance_matrix.length d.covariance_matrix).det ≠ 0) :
    ∃ P, precision_matrix d = .ok (P, { d with _precision_matrix := some P }) ∧
      toMatrix d.covariance_matrix.length P *
        toMatrix d.covariance_matrix.length d.covariance_matrix = 1 ∧
      precision_matrix { d with _precision_matrix := some P } =
        .ok (P, { d with _precision_matrix := some P }) ∧
      ∀ vs d₂ r,
        marginalize { d with _precision_matrix := some P } (.list vs) true =
          .ok (d₂, r) →
        d₂._precision_matrix = none ∧
        precision_matrix d₂ = (npLinalgInv d₂.covariance_matrix).map
          fun Q => (Q, { d₂ with _precision_matrix := some Q }) := by
  have hinv : npLinalgInv d.covariance_matrix = .ok (ofMatrix
      d.covariance_matrix.length
      ((toMatrix d.covariance_matrix.length d.covariance_matrix).det⁻¹ •
        (toMatrix d.covariance_matrix.length d.covariance_matrix).adjugate)) := by
    unfold npLinalgInv
    rw [if_neg hdet]
  refine ⟨_, ?_, (npLinalgInv_ok _ _ hinv).2.1, ?_, ?_⟩
  · rw [precision_matrix_of_unset d hc, hinv]
    rfl
  · exact precision_matrix_of_cached _ _ rfl
  · intro vs d₂ r hm
    have h2 := marginalize_true_ok_inv _ vs d₂ r hm
    exact ⟨h2.1, precision_matrix_of_unset d₂ h2.1⟩

theorem C2_precision_lazy_cache_witness :
    ∃ P, precision_matrix disEx =
        .ok (P, { disEx with _precision_matrix := some P }) ∧
      toMatrix disEx.covariance_matrix.length P *
        toMatrix disEx.covariance_matrix.length disEx.covariance_matrix = 1 ∧
      precision_matrix { disEx with _precision_matrix := some P } =
        .ok (P, { disEx with _precision_matrix := some P }) ∧
      ∀ vs d₂ r,
        marginalize { disEx with _precision_matrix := some P } (.list vs) true =
          .ok (d₂, r) →
        d₂._precision_matrix = none ∧
        precision_matrix d₂ = (npLinalgInv d₂.covariance_matrix).map
          fun Q => (Q, { d₂ with _precision_matrix := some Q }) :=
  C2_precision_lazy_cache disEx rfl (by
    show (toMatrix 3 [[(4:ℚ), 2, -2], [2, 5, -5], [-2, -5, 8]]).det ≠ 0
    rw [show toMatrix 3 [[(4:ℚ), 2, -2], [2, 5, -5], [-2, -5, 8]] =
        !![(4:ℚ), 2, -2; 2, 5, -5; -2, -5, 8] from by
      ext i j; fin_cases i <;> fin_cases j <;> rfl]
    norm_num [Matrix.det_fin_three])

/-- C7: on a state with an unset cache, accessing `precision_matrix` fails
with `SingularMatrixError` exactly when the covariance matrix is singular
(zero determinant, i.e. not invertible over ℚ); for an invertible
covariance matrix the access succeeds, so the error is never raised.  The
`Except` result is the surfaced error itself: there is no retry or
fallback in the accessor. -/
theorem C7_singular_covariance (d : JointGaussianDistribution)
    (hc : d._precision_matrix = none) :
    ((toMatrix d.covariance_matrix.length d.covariance_matrix).det = 0 →
      precision_matrix d = .error .SingularMatrixError) ∧
    ((toMatrix d.covariance_matrix.length d.covariance_matrix).det ≠ 0 →
      ∃ P d', precision_matrix d = .ok (P, d')) := by
  constructor
  · intro h0
    rw [precision_matrix_of_unset d hc, npLinalgInv_error _ h0]
    rfl
  · intro hne
    rw [precision_matrix_of_unset d hc]
    unfold npLinalgInv
    rw [if_neg hne]
    exact ⟨_, _, rfl⟩

theorem C7_singular_covariance_witness :
    precision_matrix disSingular = .error .SingularMatrixError ∧
    ∃ P d', precision_matrix disEx = .ok (P, d') :=
  ⟨(C7_singular_covariance disSingular rfl).1 (by
      show (toMatrix 2 [[(1:ℚ), 2], [2, 4]]).det = 0
      rw [show toMatrix 2 [[(1:ℚ), 2], [2, 4]] = !![(1:ℚ), 2; 2, 4] from by
        ext i j; fin_cases i <;> fin_cases j <;> rfl]
      norm_num [Matrix.det_fin_two]),
   (C7_singular_covariance disEx rfl).2 (by
      show (toMatrix 3 [[(4:ℚ), 2, -2], [2, 5, -5], [-2, -5, 8]]).det ≠ 0
      rw [show toMatrix 3 [[(4:ℚ), 2, -2], [2, 5, -5], [-2, -5, 8]] =
          !![(4:ℚ), 2, -2; 2, 5, -5; -2, -5, 8] from by
        ext i j; fin_cases i <;> fin_cases j <;> rfl]
      norm_num [Matrix.det_fin_three])⟩

end Pgmpy
